import Mathlib

/-!
Verification of the TRL4 repository: a columnar route transposition cipher
(src/TableRoute/src/TableRouteCipher.cpp) and a polyalphabetic substitution
cipher over the 33-letter Russian alphabet (src/modAlpha/src/modAlphaCipher.cpp).

Both C++ classes signal failure by throwing a `cipher_error` carrying a message
string; the shallow embedding returns `Except CipherError` instead, with one
`CipherError` constructor per distinct thrown message.  Strings are embedded as
`List Char`; `size_t`/`int` arithmetic (all values involved are small and
non-negative) is embedded as `Nat` arithmetic, except the route-cipher
constructor argument which is an `int` and is embedded as `Int`.
-/

namespace TRL4

/-- Error kinds thrown as `cipher_error` by the two programs.  The constructor
names follow the spec's taxonomy; the corresponding thrown messages are:
`invalidKey` = "Ключ должен быть положительным" (route) / "Invalid key" (substitution),
`emptyKey` = "Empty key", `weakKey` = "Weak key",
`emptyText` = "Текст пуст" (route) / "Empty open text" / "Empty cipher text" (substitution),
`noLetters` = "Текст не содержит букв", `textTooShort` = "Длина текста должна
быть больше ключа (количества столбцов)", `invalidCipherText` = "Invalid cipher text". -/
inductive CipherError where
  | invalidKey
  | emptyKey
  | weakKey
  | emptyText
  | noLetters
  | textTooShort
  | invalidCipherText
deriving DecidableEq, Repr

instance {e a : Type} [DecidableEq e] [DecidableEq a] : DecidableEq (Except e a) :=
  fun x y =>
    match x, y with
    | .ok u, .ok v => decidable_of_iff (u = v) (by simp)
    | .error u, .error v => decidable_of_iff (u = v) (by simp)
    | .ok _, .error _ => isFalse (by simp)
    | .error _, .ok _ => isFalse (by simp)

namespace TableRoute

/-- Embedding of C `isalpha` under the default "C" locale, as used by
`TableRouteCipher::getValidText` on `char` input: true exactly on the ASCII
letters. -/
def isalpha (c : Char) : Bool :=
  (decide ('A' ≤ c) && decide (c ≤ 'Z')) || (decide ('a' ≤ c) && decide (c ≤ 'z'))

/-- Embedding of C `toupper` under the "C" locale: maps a lowercase ASCII
letter 32 code points down, leaves every other character unchanged. -/
def toupper (c : Char) : Char :=
  if 'a' ≤ c ∧ c ≤ 'z' then Char.ofNat (c.toNat - 32) else c

/-- The filtering/uppercasing loop of `TableRouteCipher::getValidText`
(TableRouteCipher.cpp lines 167-172): keep `isalpha` characters, uppercased,
in order. -/
def normalize (text : List Char) : List Char :=
  text.filterMap fun c => if isalpha c then some (toupper c) else none

/-- `TableRouteCipher::getValidText` (TableRouteCipher.cpp lines 162-177):
empty input throws "Текст пуст" (`emptyText`); if nothing survives the letter
filter it throws "Текст не содержит букв" (`noLetters`); otherwise the
normalized text is returned. -/
def getValidText (text : List Char) : Except CipherError (List Char) :=
  if text.isEmpty then .error .emptyText
  else
    let result := normalize text
    if result.isEmpty then .error .noLetters else .ok result

/-- `TableRouteCipher::getValidKey` (TableRouteCipher.cpp lines 146-152):
a non-positive `int` key throws "Ключ должен быть положительным"
(`invalidKey`); otherwise the key is cast to `size_t` and stored as the
column count. -/
def getValidKey (key : Int) : Except CipherError Nat :=
  if key ≤ 0 then .error .invalidKey else .ok key.toNat

/-- Contents of the encryption table cell at row `i`, column `j` after the
row-major fill loop of `TableRouteCipher::encrypt` (lines 53-61).  The table
is blank-filled (`' '`) and the loop's running `index` counter equals the
row-major cell ordinal `i * columns + j`, so the cell holds
`validText[i * columns + j]` when that ordinal is below the text length and
stays blank otherwise. -/
def cellChar (v : List Char) (columns i j : Nat) : Char :=
  if i * columns + j < v.length then v.getD (i * columns + j) ' ' else ' '

/-- `TableRouteCipher::encrypt` (TableRouteCipher.cpp lines 40-74): validate
the text, require its length to be strictly greater than the column count,
fill a `rows x columns` table row-major, then read it column by column from
the rightmost column to the leftmost, within each column from the bottom row
to the top, skipping blank cells.  The descending C loops
`for (j = columns-1; j >= 0; j--)` and `for (i = rows-1; i >= 0; i--)` are the
reversed ranges. -/
def encrypt (columns : Nat) (text : List Char) : Except CipherError (List Char) :=
  match getValidText text with
  | .error e => .error e
  | .ok validText =>
    if validText.length ≤ columns then .error .textTooShort
    else
      let rows := (validText.length + columns - 1) / columns
      .ok ((List.range columns).reverse.flatMap fun j =>
        (List.range rows).reverse.filterMap fun i =>
          if cellChar validText columns i j ≠ ' ' then some (cellChar validText columns i j)
          else none)

/-- The `filled` mask computed by `TableRouteCipher::decrypt` (lines 104-113):
the `total_filled` counter runs through the cells row-major and equals the
cell ordinal `i * columns + j`, so cell `(i, j)` is marked filled exactly when
`i * columns + j < n`. -/
def filledCell (columns n i j : Nat) : Bool := i * columns + j < n

/-- The sequence of row-major cell ordinals visited by the column-major
write loop of `TableRouteCipher::decrypt` (lines 116-123): columns from
rightmost to leftmost, rows from bottom to top, keeping only filled cells.
This is also exactly the order in which `encrypt`'s read loop (lines 64-71)
visits the non-blank cells. -/
def writeOrder (columns rows n : Nat) : List Nat :=
  (List.range columns).reverse.flatMap fun j =>
    (List.range rows).reverse.filterMap fun i =>
      if filledCell columns n i j then some (i * columns + j) else none

/-- `TableRouteCipher::decrypt` (TableRouteCipher.cpp lines 88-136): validate
the text (same normalization as encrypt), require length strictly greater
than the column count, compute the filled mask, write the input characters
into the filled cells in column-major right-to-left bottom-to-top order
(the `k`-th visited filled cell receives `validText[k]`, embedded as the
association list `(writeOrder ...).zip validText`, whose `zip` truncation
mirrors the loop's `text_index < length` guard), then read the filled cells
back row by row, left to right.  An unassigned cell would contribute its
blank fill `' '`, hence the `.getD ' '` default. -/
def decrypt (columns : Nat) (text : List Char) : Except CipherError (List Char) :=
  match getValidText text with
  | .error e => .error e
  | .ok validText =>
    if validText.length ≤ columns then .error .textTooShort
    else
      let n := validText.length
      let rows := (n + columns - 1) / columns
      let assign := (writeOrder columns rows n).zip validText
      .ok ((List.range rows).flatMap fun i =>
        (List.range columns).filterMap fun j =>
          if filledCell columns n i j then some ((assign.lookup (i * columns + j)).getD ' ')
          else none)

end TableRoute

namespace ModAlpha

/-- The fixed 33-letter alphabet `numAlpha` of `modAlphaCipher`
(modAlphaCipher.h line 58): the uppercase Russian letters with Ё at
position 6. -/
def numAlpha : List Char := "АБВГДЕЁЖЗИЙКЛМНОПРСТУФХЦЧШЩЪЫЬЭЮЯ".toList

/-- `modAlphaCipher::isValidChar` (modAlphaCipher.h lines 140-143): Russian
letters only, either case, with Ё/ё handled separately because they sit
outside the contiguous А..Я and а..я code-point ranges. -/
def isValidChar (c : Char) : Bool :=
  (decide ('А' ≤ c) && decide (c ≤ 'Я')) || (decide ('а' ≤ c) && decide (c ≤ 'я')) ||
    (c == 'Ё') || (c == 'ё')

/-- `modAlphaCipher::isUpperChar` (modAlphaCipher.h lines 145-148): uppercase
Russian letters А..Я or Ё. -/
def isUpperChar (c : Char) : Bool :=
  (decide ('А' ≤ c) && decide (c ≤ 'Я')) || (c == 'Ё')

/-- `modAlphaCipher::toUpperChar` (modAlphaCipher.h lines 150-155): a
lowercase а..я letter is moved 32 code points down (`c - L'а' + L'А'`),
ё maps to Ё, everything else is unchanged. -/
def toUpperChar (c : Char) : Char :=
  if 'а' ≤ c ∧ c ≤ 'я' then Char.ofNat (c.toNat - 32)
  else if c = 'ё' then 'Ё'
  else c

/-- Lookup in the `alphaNum` map built by the constructor (modAlphaCipher.cpp
lines 31-33): `alphaNum[numAlpha[i]] = i` for each `i` in order.  Since the
33 alphabet characters are pairwise distinct, the map sends a character to
the index of its first (only) occurrence in `numAlpha`, and misses for every
other character. -/
def alphaIdx (c : Char) : Option Nat := numAlpha.findIdx? fun x => x = c

/-- String-to-indices `modAlphaCipher::convert` (modAlphaCipher.cpp lines
99-108): characters found in `alphaNum` contribute their index, all others
are dropped. -/
def convertStr (s : List Char) : List Nat := s.filterMap alphaIdx

/-- The alphabet index of a character known to be in the alphabet (the
`Option.getD` defaulting is never exercised under that hypothesis). -/
def alphaIdxD (c : Char) : Nat := (alphaIdx c).getD 0

/-- Indices-to-string `modAlphaCipher::convert` (modAlphaCipher.cpp lines
118-127): indices inside `[0, 33)` contribute the alphabet character at that
position, out-of-range values are dropped (the C++ `i >= 0` half of the test
is vacuous for `Nat`). -/
def convertNums (v : List Nat) : List Char :=
  v.filterMap fun i => if i < numAlpha.length then numAlpha[i]? else none

/-- `modAlphaCipher::getValidKey` (modAlphaCipher.h lines 157-169): an empty
key throws "Empty key"; a key with any non-Russian-letter character throws
"Invalid key" (the loop throws at the first invalid character, which the
`Except` embedding collapses to the same single error); otherwise every
character is uppercased. -/
def getValidKey (s : List Char) : Except CipherError (List Char) :=
  if s.isEmpty then .error .emptyKey
  else if s.all isValidChar then .ok (s.map toUpperChar)
  else .error .invalidKey

/-- The filtering/uppercasing loop of `modAlphaCipher::getValidOpenText`
(modAlphaCipher.h lines 173-178): keep the Russian letters, uppercased, in
order. -/
def normalize (s : List Char) : List Char :=
  s.filterMap fun c => if isValidChar c then some (toUpperChar c) else none

/-- `modAlphaCipher::getValidOpenText` (modAlphaCipher.h lines 171-182):
filter to Russian letters and uppercase; if nothing survives, throw
"Empty open text" (`emptyText`). -/
def getValidOpenText (s : List Char) : Except CipherError (List Char) :=
  let tmp := normalize s
  if tmp.isEmpty then .error .emptyText else .ok tmp

/-- `modAlphaCipher::getValidCipherText` (modAlphaCipher.h lines 184-194):
an empty input throws "Empty cipher text" (`emptyText`); any character that
is not an uppercase Russian letter throws "Invalid cipher text"; otherwise
the input is returned unchanged (no filtering, no uppercasing). -/
def getValidCipherText (s : List Char) : Except CipherError (List Char) :=
  if s.isEmpty then .error .emptyText
  else if s.all isUpperChar then .ok s
  else .error .invalidCipherText

/-- The state of a constructed `modAlphaCipher`: the key converted to
alphabet indices (`std::vector<int> key`). -/
structure Cipher where
  key : List Nat
deriving DecidableEq, Repr

/-- The `modAlphaCipher` constructor (modAlphaCipher.cpp lines 28-55):
validate the key, then run the weak-key scan.  `isWeakKey` starts `true` and
is cleared only when the key has length greater than 1 and some later
character differs from the first — so it remains `true` for every
single-character key.  If `isWeakKey` holds for the (necessarily non-empty)
validated key, "Weak key" is thrown; otherwise the key is converted to
alphabet indices. -/
def mk (skey : List Char) : Except CipherError Cipher :=
  match getValidKey skey with
  | .error e => .error e
  | .ok validKey =>
    let isWeakKey :=
      if validKey.length > 1 then validKey.tail.all fun c => c == validKey.headD ' '
      else true
    if isWeakKey && validKey.length > 0 then .error .weakKey
    else .ok ⟨convertStr validKey⟩

/-- `modAlphaCipher::encrypt` (modAlphaCipher.cpp lines 65-72): validate and
filter the open text, convert to indices, shift each index by the key index
at the cyclically repeating key position, modulo the alphabet size, and
convert back to characters. -/
def encrypt (c : Cipher) (openText : List Char) : Except CipherError (List Char) :=
  match getValidOpenText openText with
  | .error e => .error e
  | .ok valid =>
    let work := convertStr valid
    let work := work.mapIdx fun i w => (w + c.key.getD (i % c.key.length) 0) % numAlpha.length
    .ok (convertNums work)

/-- `modAlphaCipher::decrypt` (modAlphaCipher.cpp lines 82-89): validate the
cipher text strictly, convert to indices, shift each index by
`33 - keyIndex` at the cyclically repeating key position, modulo the
alphabet size, and convert back to characters. -/
def decrypt (c : Cipher) (cipherText : List Char) : Except CipherError (List Char) :=
  match getValidCipherText cipherText with
  | .error e => .error e
  | .ok valid =>
    let work := convertStr valid
    let work := work.mapIdx fun i w =>
      (w + numAlpha.length - c.key.getD (i % c.key.length) 0) % numAlpha.length
    .ok (convertNums work)

end ModAlpha

end TRL4

/-! ## General character-level helper lemmas -/

namespace TRL4

theorem char_toNat_ofNat {n : Nat} (h : n < 55296) : (Char.ofNat n).toNat = n := by
  have hv : Nat.isValidChar n := Or.inl h
  simp only [Char.ofNat, dif_pos hv]
  rfl

theorem char_le_iff_toNat {a b : Char} : a ≤ b ↔ a.toNat ≤ b.toNat := by
  rw [Char.le_def]
  exact Iff.rfl

theorem char_eq_iff_toNat {a b : Char} : a = b ↔ a.toNat = b.toNat := by
  constructor
  · intro h
    rw [h]
  · intro h
    have := congrArg Char.ofNat h
    rwa [Char.ofNat_toNat, Char.ofNat_toNat] at this

/-- Membership of a character in a concrete list follows from a code-point
interval once every code point of the interval is known to be in the list. -/
theorem char_mem_of_toNat_bounds {l : List Char} (lo len : Nat)
    (h : ∀ k, k < len → Char.ofNat (lo + k) ∈ l) {c : Char}
    (h1 : lo ≤ c.toNat) (h2 : c.toNat < lo + len) : c ∈ l := by
  have hk := h (c.toNat - lo) (by omega)
  have he : lo + (c.toNat - lo) = c.toNat := by omega
  rw [he, Char.ofNat_toNat] at hk
  exact hk

end TRL4

/-! ## Substitution cipher: alphabet and conversion lemmas -/

namespace TRL4.ModAlpha

theorem numAlpha_length : numAlpha.length = 33 := by decide

theorem isUpperChar_of_mem_numAlpha : ∀ c ∈ numAlpha, isUpperChar c = true := by
  decide

theorem mem_numAlpha_of_isUpperChar {c : Char} (h : isUpperChar c = true) :
    c ∈ numAlpha := by
  simp only [isUpperChar, Bool.or_eq_true, Bool.and_eq_true, decide_eq_true_eq,
    beq_iff_eq] at h
  rcases h with ⟨h1, h2⟩ | h1
  · have hlo : (1040 : Nat) ≤ c.toNat := char_le_iff_toNat.mp h1
    have hhi : c.toNat ≤ (1071 : Nat) := char_le_iff_toNat.mp h2
    exact char_mem_of_toNat_bounds 1040 32 (by decide) hlo (by omega)
  · rw [h1]
    decide

theorem isUpperChar_toUpperChar {c : Char} (h : isValidChar c = true) :
    isUpperChar (toUpperChar c) = true := by
  simp only [isValidChar, Bool.or_eq_true, Bool.and_eq_true, decide_eq_true_eq,
    beq_iff_eq] at h
  rcases h with ((⟨h1, h2⟩ | ⟨h1, h2⟩) | h1) | h1
  · have hlo : (1040 : Nat) ≤ c.toNat := char_le_iff_toNat.mp h1
    have hhi : c.toNat ≤ (1071 : Nat) := char_le_iff_toNat.mp h2
    have hg : ¬ ('а' ≤ c ∧ c ≤ 'я') := by
      intro hc
      have hx : (1072 : Nat) ≤ c.toNat := char_le_iff_toNat.mp hc.1
      omega
    have hne : c ≠ 'ё' := by
      intro he
      have hx : c.toNat = (1105 : Nat) := char_eq_iff_toNat.mp he
      omega
    rw [toUpperChar, if_neg hg, if_neg hne]
    simp only [isUpperChar, Bool.or_eq_true, Bool.and_eq_true, decide_eq_true_eq]
    exact Or.inl ⟨h1, h2⟩
  · have hlo : (1072 : Nat) ≤ c.toNat := char_le_iff_toNat.mp h1
    have hhi : c.toNat ≤ (1103 : Nat) := char_le_iff_toNat.mp h2
    rw [toUpperChar, if_pos ⟨h1, h2⟩]
    have ht : (Char.ofNat (c.toNat - 32)).toNat = c.toNat - 32 :=
      char_toNat_ofNat (by omega)
    simp only [isUpperChar, Bool.or_eq_true, Bool.and_eq_true, decide_eq_true_eq]
    refine Or.inl ⟨char_le_iff_toNat.mpr ?_, char_le_iff_toNat.mpr ?_⟩
    · show (1040 : Nat) ≤ (Char.ofNat (c.toNat - 32)).toNat
      rw [ht]
      omega
    · show (Char.ofNat (c.toNat - 32)).toNat ≤ (1071 : Nat)
      rw [ht]
      omega
  · rw [h1]
    decide
  · rw [h1]
    decide

theorem mem_numAlpha_toUpperChar {c : Char} (h : isValidChar c = true) :
    toUpperChar c ∈ numAlpha :=
  mem_numAlpha_of_isUpperChar (isUpperChar_toUpperChar h)

theorem alphaIdx_spec {c : Char} (h : c ∈ numAlpha) :
    ∃ i, alphaIdx c = some i ∧ i < 33 ∧ numAlpha.getD i ' ' = c := by
  have hex : ∃ x, x ∈ numAlpha ∧ (decide (x = c)) = true := ⟨c, h, by simp⟩
  have h1 := List.findIdx?_eq_some_of_exists hex
  obtain ⟨hlt, hp, -⟩ := List.findIdx?_eq_some_iff_getElem.mp h1
  refine ⟨_, h1, ?_, ?_⟩
  · rw [← numAlpha_length]
    exact hlt
  · rw [List.getD_eq_getElem _ _ hlt]
    exact of_decide_eq_true hp

theorem alphaIdx_numAlpha_getD : ∀ i, i < 33 →
    alphaIdx (numAlpha.getD i ' ') = some i := by
  decide


theorem alphaIdx_eq_some {c : Char} (h : c ∈ numAlpha) :
    alphaIdx c = some (alphaIdxD c) := by
  obtain ⟨i, hi, -, -⟩ := alphaIdx_spec h
  rw [alphaIdxD, hi]
  rfl

theorem alphaIdxD_lt {c : Char} (h : c ∈ numAlpha) : alphaIdxD c < 33 := by
  obtain ⟨i, hi, hlt, -⟩ := alphaIdx_spec h
  rw [alphaIdxD, hi]
  exact hlt

theorem numAlpha_getD_alphaIdxD {c : Char} (h : c ∈ numAlpha) :
    numAlpha.getD (alphaIdxD c) ' ' = c := by
  obtain ⟨i, hi, -, hc⟩ := alphaIdx_spec h
  rw [alphaIdxD, hi]
  exact hc

theorem alphaIdxD_numAlpha_getD {i : Nat} (h : i < 33) :
    alphaIdxD (numAlpha.getD i ' ') = i := by
  rw [alphaIdxD, alphaIdx_numAlpha_getD i h]
  rfl

theorem convertStr_eq_map {s : List Char} (h : ∀ c ∈ s, c ∈ numAlpha) :
    convertStr s = s.map alphaIdxD := by
  induction s with
  | nil => rfl
  | cons a t ih =>
    have ha := alphaIdx_eq_some (h a (List.mem_cons_self a t))
    have ht := ih fun c hc => h c (List.mem_cons_of_mem a hc)
    simp only [convertStr, List.filterMap_cons, ha, List.map_cons]
    exact congrArg (alphaIdxD a :: ·) ht

theorem convertNums_eq_map {v : List Nat} (h : ∀ i ∈ v, i < 33) :
    convertNums v = v.map fun i => numAlpha.getD i ' ' := by
  induction v with
  | nil => rfl
  | cons a t ih =>
    have ha : a < numAlpha.length := by
      rw [numAlpha_length]
      exact h a (List.mem_cons_self a t)
    have ht := ih fun i hi => h i (List.mem_cons_of_mem a hi)
    simp only [convertNums, List.filterMap_cons, if_pos ha,
      List.getElem?_eq_getElem ha, List.map_cons, List.getD_eq_getElem _ _ ha]
    exact congrArg (numAlpha[a] :: ·) ht

theorem mem_numAlpha_of_mem_normalize {s : List Char} {u : Char}
    (h : u ∈ normalize s) : u ∈ numAlpha := by
  simp only [normalize, List.mem_filterMap, Option.ite_none_right_eq_some,
    Option.some.injEq] at h
  obtain ⟨c, -, hc, hu⟩ := h
  rw [← hu]
  exact mem_numAlpha_toUpperChar hc

theorem getValidKey_ok_spec {s vk : List Char} (h : getValidKey s = .ok vk) :
    s ≠ [] ∧ vk = s.map toUpperChar ∧ ∀ c ∈ s, isValidChar c = true := by
  rw [getValidKey] at h
  by_cases h1 : s.isEmpty
  · rw [if_pos h1] at h
    exact absurd h (by simp)
  · rw [if_neg h1] at h
    by_cases h2 : s.all isValidChar
    · rw [if_pos h2] at h
      refine ⟨by simpa using h1, by simpa using h.symm, ?_⟩
      simpa [List.all_eq_true] using h2
    · rw [if_neg h2] at h
      exact absurd h (by simp)

theorem mk_ok_spec {skey : List Char} {c : Cipher} (h : mk skey = .ok c) :
    c.key ≠ [] ∧ ∀ x ∈ c.key, x < 33 := by
  rw [mk] at h
  cases hk : getValidKey skey with
  | error e =>
    rw [hk] at h
    exact absurd h (by simp)
  | ok vk =>
    rw [hk] at h
    simp only at h
    by_cases hw : (if vk.length > 1 then vk.tail.all fun c => c == vk.headD ' '
        else true) && vk.length > 0
    · rw [if_pos hw] at h
      exact absurd h (by simp)
    · rw [if_neg hw] at h
      obtain ⟨hs, hvk, hvalid⟩ := getValidKey_ok_spec hk
      have hmem : ∀ ch ∈ vk, ch ∈ numAlpha := by
        intro ch hch
        rw [hvk] at hch
        obtain ⟨c0, hc0, hup⟩ := List.mem_map.mp hch
        rw [← hup]
        exact mem_numAlpha_toUpperChar (hvalid c0 hc0)
      have hc : c = ⟨convertStr vk⟩ := by
        cases h
        rfl
      constructor
      · rw [hc]
        show convertStr vk ≠ []
        rw [convertStr_eq_map hmem]
        intro hnil
        rw [List.map_eq_nil_iff] at hnil
        rw [hnil] at hvk
        cases skey with
        | nil => exact hs rfl
        | cons a t => simp at hvk
      · rw [hc]
        show ∀ x ∈ convertStr vk, x < 33
        rw [convertStr_eq_map hmem]
        intro x hx
        obtain ⟨ch, hch, hx⟩ := List.mem_map.mp hx
        rw [← hx]
        exact alphaIdxD_lt (hmem ch hch)

theorem getValidOpenText_ok_spec {s v : List Char}
    (h : getValidOpenText s = .ok v) : v = normalize s ∧ normalize s ≠ [] := by
  simp only [getValidOpenText] at h
  by_cases h1 : (normalize s).isEmpty
  · rw [if_pos h1] at h
    exact absurd h (by simp)
  · rw [if_neg h1] at h
    refine ⟨by simpa using h.symm, by simpa using h1⟩

theorem getValidOpenText_eq {s : List Char} (h : normalize s ≠ []) :
    getValidOpenText s = .ok (normalize s) := by
  simp only [getValidOpenText]
  rw [if_neg (by simpa using h)]

theorem getValidCipherText_ok_spec {s v : List Char}
    (h : getValidCipherText s = .ok v) :
    v = s ∧ s ≠ [] ∧ ∀ c ∈ s, isUpperChar c = true := by
  simp only [getValidCipherText] at h
  by_cases h1 : s.isEmpty
  · rw [if_pos h1] at h
    exact absurd h (by simp)
  · rw [if_neg h1] at h
    by_cases h2 : s.all isUpperChar
    · rw [if_pos h2] at h
      refine ⟨by simpa using h.symm, by simpa using h1, by simpa [List.all_eq_true] using h2⟩
    · rw [if_neg h2] at h
      exact absurd h (by simp)

theorem getValidCipherText_eq {s : List Char} (hne : s ≠ [])
    (hall : ∀ c ∈ s, isUpperChar c = true) : getValidCipherText s = .ok s := by
  simp only [getValidCipherText]
  rw [if_neg (by simpa using hne), if_pos (by simpa [List.all_eq_true] using hall)]

theorem mapIdx_mod_lt {l : List Nat} {f : Nat → Nat → Nat} {x : Nat}
    (hx : x ∈ l.mapIdx fun i w => f i w % 33) : x < 33 := by
  obtain ⟨i, hi, hx⟩ := List.mem_iff_getElem.mp hx
  rw [List.getElem_mapIdx] at hx
  rw [← hx]
  exact Nat.mod_lt _ (by omega)

theorem encrypt_eq {c : Cipher} {t : List Char} (h : normalize t ≠ []) :
    encrypt c t = .ok ((((normalize t).map alphaIdxD).mapIdx fun i w =>
      (w + c.key.getD (i % c.key.length) 0) % 33).map fun i => numAlpha.getD i ' ') := by
  have hmem : ∀ u ∈ normalize t, u ∈ numAlpha := fun u hu =>
    mem_numAlpha_of_mem_normalize hu
  simp only [encrypt, getValidOpenText_eq h, numAlpha_length,
    convertStr_eq_map hmem]
  rw [convertNums_eq_map fun i hi => mapIdx_mod_lt hi]

theorem decrypt_eq {c : Cipher} {u : List Char} (hne : u ≠ [])
    (hall : ∀ ch ∈ u, isUpperChar ch = true) :
    decrypt c u = .ok (((u.map alphaIdxD).mapIdx fun i w =>
      (w + 33 - c.key.getD (i % c.key.length) 0) % 33).map fun i => numAlpha.getD i ' ') := by
  have hmem : ∀ ch ∈ u, ch ∈ numAlpha := fun ch hch =>
    mem_numAlpha_of_isUpperChar (hall ch hch)
  simp only [decrypt, getValidCipherText_eq hne hall, numAlpha_length,
    convertStr_eq_map hmem]
  rw [convertNums_eq_map fun i hi => mapIdx_mod_lt hi]

theorem key_getD_lt {c : Cipher} (hkne : c.key ≠ []) (hklt : ∀ x ∈ c.key, x < 33)
    (i : Nat) : c.key.getD (i % c.key.length) 0 < 33 := by
  have hlen : 0 < c.key.length := List.length_pos.mpr hkne
  have hm : i % c.key.length < c.key.length := Nat.mod_lt _ hlen
  rw [List.getD_eq_getElem _ _ hm]
  exact hklt _ (List.getElem_mem hm)

theorem mapIdx_shift_unshift {c : Cipher} (hkne : c.key ≠ [])
    (hklt : ∀ x ∈ c.key, x < 33) (w : List Nat) (hw : ∀ x ∈ w, x < 33) :
    ((w.mapIdx fun i x => (x + c.key.getD (i % c.key.length) 0) % 33).mapIdx fun i x =>
      (x + 33 - c.key.getD (i % c.key.length) 0) % 33) = w := by
  apply List.ext_getElem
  · simp
  · intro n h1 h2
    simp only [List.getElem_mapIdx]
    have hk := key_getD_lt hkne hklt n
    have hwn : w[n] < 33 := hw _ (List.getElem_mem h2)
    omega

theorem map_getD_alphaIdxD {v : List Char} (h : ∀ u ∈ v, u ∈ numAlpha) :
    (v.map alphaIdxD).map (fun i => numAlpha.getD i ' ') = v := by
  induction v with
  | nil => rfl
  | cons a t ih =>
    simp only [List.map_cons]
    rw [numAlpha_getD_alphaIdxD (h a (List.mem_cons_self a t)),
      ih fun u hu => h u (List.mem_cons_of_mem a hu)]

theorem map_alphaIdxD_getD {l : List Nat} (h : ∀ i ∈ l, i < 33) :
    ((l.map fun i => numAlpha.getD i ' ').map alphaIdxD) = l := by
  induction l with
  | nil => rfl
  | cons a t ih =>
    simp only [List.map_cons]
    rw [alphaIdxD_numAlpha_getD (h a (List.mem_cons_self a t)),
      ih fun i hi => h i (List.mem_cons_of_mem a hi)]

theorem getD_mem_numAlpha {i : Nat} (h : i < 33) : numAlpha.getD i ' ' ∈ numAlpha := by
  have hl : i < numAlpha.length := by
    rw [numAlpha_length]
    exact h
  rw [List.getD_eq_getElem _ _ hl]
  exact List.getElem_mem hl

/-- Claim C3: for every validly constructed key and every text containing at
least one alphabet letter, substitution decrypt of encrypt returns the
normalized text (alphabet letters only, uppercased). -/
theorem modAlpha_round_trip (skey : List Char) (c : Cipher) (text : List Char)
    (hmk : mk skey = .ok c) (hne : normalize text ≠ []) :
    (encrypt c text).bind (decrypt c) = .ok (normalize text) := by
  obtain ⟨hkne, hklt⟩ := mk_ok_spec hmk
  have hvmem : ∀ u ∈ normalize text, u ∈ numAlpha := fun u hu =>
    mem_numAlpha_of_mem_normalize hu
  have hwlt : ∀ x ∈ (normalize text).map alphaIdxD, x < 33 := by
    intro x hx
    obtain ⟨u, hu, hx⟩ := List.mem_map.mp hx
    rw [← hx]
    exact alphaIdxD_lt (hvmem u hu)
  rw [encrypt_eq hne]
  have hsne : ((((normalize text).map alphaIdxD).mapIdx fun i w =>
      (w + c.key.getD (i % c.key.length) 0) % 33).map fun i => numAlpha.getD i ' ') ≠ [] := by
    intro hnil
    have hlen := congrArg List.length hnil
    simp only [List.length_map, List.length_mapIdx, List.length_nil] at hlen
    exact hne (List.length_eq_zero.mp hlen)
  have hsall : ∀ ch ∈ (((normalize text).map alphaIdxD).mapIdx fun i w =>
      (w + c.key.getD (i % c.key.length) 0) % 33).map fun i => numAlpha.getD i ' ',
      isUpperChar ch = true := by
    intro ch hch
    obtain ⟨i, hi, hch⟩ := List.mem_map.mp hch
    rw [← hch]
    exact isUpperChar_of_mem_numAlpha _ (getD_mem_numAlpha (mapIdx_mod_lt hi))
  show decrypt c _ = _
  rw [decrypt_eq hsne hsall]
  rw [map_alphaIdxD_getD fun i hi => mapIdx_mod_lt hi]
  rw [mapIdx_shift_unshift hkne hklt _ hwlt]
  rw [map_getD_alphaIdxD hvmem]

/-- Claim C3 witness: the round trip evaluated with the key "КЛЮЧ" and the
open text "ПРИВЕТ" of the repository's own test driver. -/
theorem modAlpha_round_trip_witness :
    (encrypt ⟨[11, 12, 31, 24]⟩ "ПРИВЕТ".toList).bind (decrypt ⟨[11, 12, 31, 24]⟩) =
      .ok "ПРИВЕТ".toList := by
  have h := modAlpha_round_trip "КЛЮЧ".toList ⟨[11, 12, 31, 24]⟩ "ПРИВЕТ".toList
    (by decide) (by decide)
  have he : normalize "ПРИВЕТ".toList = "ПРИВЕТ".toList := by decide
  rwa [he] at h

theorem weak_flag_iff {vk : List Char} (hne : vk ≠ []) :
    ((if vk.length > 1 then vk.tail.all fun c => c == vk.headD ' ' else true) = true)
      ↔ ∀ c ∈ vk, c = vk.headD ' ' := by
  cases vk with
  | nil => exact absurd rfl hne
  | cons a t =>
    cases t with
    | nil => simp
    | cons b u =>
      rw [if_pos (by simp [List.length_cons])]
      simp only [List.all_eq_true, beq_iff_eq, List.headD_cons, List.tail_cons,
        List.mem_cons]
      constructor
      · rintro h c (rfl | hc)
        · rfl
        · exact h c hc
      · intro h c hc
        exact h c (Or.inr hc)

/-- Claim C1 counterexample: contrary to the claim, a single-character key is
rejected — the constructor's `isWeakKey` flag starts `true` and is only ever
cleared when the validated key is longer than one character, so
`modAlphaCipher(L"А")` throws "Weak key". -/
theorem mk_single_char_key_weak : mk ['А'] = .error .weakKey := by decide

/-- Claim C1 (amended): `new("ААА")` fails with WeakKey and `new("")` fails
with EmptyKey as claimed, but the single-character case is the other way
around: for every key passing `getValidKey`, the constructor fails with
WeakKey exactly when all characters of the validated key are identical —
which includes every single-character key, so `new("А")` also fails with
WeakKey. -/
theorem modAlpha_key_validation :
    mk "ААА".toList = .error .weakKey ∧
    mk "".toList = .error .emptyKey ∧
    ∀ s vk, getValidKey s = .ok vk →
      (mk s = .error .weakKey ↔ ∀ c ∈ vk, c = vk.headD ' ') := by
  refine ⟨by decide, by decide, ?_⟩
  intro s vk hvk
  obtain ⟨hs, hvkm, -⟩ := getValidKey_ok_spec hvk
  have hne : vk ≠ [] := by
    rw [hvkm]
    cases s with
    | nil => exact absurd rfl hs
    | cons a t => simp
  have hpos : vk.length > 0 := List.length_pos.mpr hne
  rw [mk, hvk]
  simp only
  by_cases hw : (if vk.length > 1 then vk.tail.all fun c => c == vk.headD ' '
      else true) = true
  · have hcond : ((if vk.length > 1 then vk.tail.all fun c => c == vk.headD ' '
        else true) && decide (vk.length > 0)) = true := by
      rw [hw]
      simp [hpos]
    rw [if_pos hcond]
    constructor
    · intro _
      exact (weak_flag_iff hne).mp hw
    · intro _
      rfl
  · have hcond : ¬ (((if vk.length > 1 then vk.tail.all fun c => c == vk.headD ' '
        else true) && decide (vk.length > 0)) = true) := by
      simp only [Bool.and_eq_true, decide_eq_true_eq]
      intro hab
      exact hw hab.1
    rw [if_neg hcond]
    constructor
    · intro h
      exact absurd h (by simp)
    · intro hall
      exact absurd ((weak_flag_iff hne).mpr hall) hw

/-- Claim C1 witness: the amended criterion applied to the two-letter keys
"АБ" (two distinct characters, accepted) and "ББ" (identical characters,
rejected as weak). -/
theorem modAlpha_key_validation_witness :
    mk "АБ".toList ≠ .error .weakKey ∧ mk "ББ".toList = .error .weakKey := by
  have h1 := modAlpha_key_validation.2.2 "АБ".toList ("АБ".toList.map toUpperChar)
    (by decide)
  have h2 := modAlpha_key_validation.2.2 "ББ".toList ("ББ".toList.map toUpperChar)
    (by decide)
  constructor
  · intro he
    exact absurd (h1.mp he) (by decide)
  · exact h2.mpr (by decide)

/-- Claim C7: substitution decrypt is strict — it fails with EmptyText on an
empty input, fails with InvalidCipherText whenever any input character is not
an uppercase alphabet letter (in particular on any lowercase letter), and on
success it neither filters nor uppercases: every input character is processed,
so the output has the input's length. -/
theorem modAlpha_decrypt_strict (c : Cipher) :
    decrypt c [] = .error .emptyText ∧
    (∀ s : List Char, s ≠ [] → (∃ ch ∈ s, ¬ isUpperChar ch = true) →
      decrypt c s = .error .invalidCipherText) ∧
    (∀ s out : List Char, decrypt c s = .ok out → out.length = s.length) := by
  refine ⟨rfl, ?_, ?_⟩
  · intro s hne hex
    have hv : getValidCipherText s = .error .invalidCipherText := by
      simp only [getValidCipherText]
      rw [if_neg (by simpa using hne), if_neg]
      simp only [List.all_eq_true]
      obtain ⟨ch, hch, hup⟩ := hex
      intro hall
      exact hup (hall ch hch)
    rw [decrypt, hv]
  · intro s out hout
    cases hv : getValidCipherText s with
    | error e =>
      rw [decrypt, hv] at hout
      exact absurd hout (by simp)
    | ok valid =>
      obtain ⟨hvs, hne, hall⟩ := getValidCipherText_ok_spec hv
      rw [decrypt_eq hne hall] at hout
      cases hout
      simp

/-- Claim C7 witness: the strict behaviour at the empty input and at the
single lowercase letter "а", for the cipher built from the key "АБ". -/
theorem modAlpha_decrypt_strict_witness :
    decrypt ⟨[0, 1]⟩ [] = .error .emptyText ∧
    decrypt ⟨[0, 1]⟩ ['а'] = .error .invalidCipherText := by
  have h := modAlpha_decrypt_strict ⟨[0, 1]⟩
  refine ⟨h.1, h.2.1 ['а'] (by decide) ⟨'а', by decide⟩⟩

/-- Claim C9: for a validly constructed cipher, every successful encryption
yields only uppercase letters of the 33-letter alphabet, of the same length
as the filtered input; consequently feeding the output to decrypt succeeds
(in particular it never raises InvalidCipherText). -/
theorem modAlpha_encrypt_wellformed (skey : List Char) (c : Cipher)
    (t s : List Char) (hmk : mk skey = .ok c) (henc : encrypt c t = .ok s) :
    (∀ ch ∈ s, ch ∈ numAlpha ∧ isUpperChar ch = true) ∧
    s.length = (normalize t).length ∧
    ∃ r, decrypt c s = .ok r := by
  have hne : normalize t ≠ [] := by
    cases hv : getValidOpenText t with
    | error e =>
      rw [encrypt, hv] at henc
      exact absurd henc (by simp)
    | ok valid => exact (getValidOpenText_ok_spec hv).2
  rw [encrypt_eq hne] at henc
  cases henc
  have hsne : ((((normalize t).map alphaIdxD).mapIdx fun i w =>
      (w + c.key.getD (i % c.key.length) 0) % 33).map fun i => numAlpha.getD i ' ') ≠ [] := by
    intro hnil
    have hlen := congrArg List.length hnil
    simp only [List.length_map, List.length_mapIdx, List.length_nil] at hlen
    exact hne (List.length_eq_zero.mp hlen)
  have hsall : ∀ ch ∈ (((normalize t).map alphaIdxD).mapIdx fun i w =>
      (w + c.key.getD (i % c.key.length) 0) % 33).map fun i => numAlpha.getD i ' ',
      isUpperChar ch = true := by
    intro ch hch
    obtain ⟨i, hi, hch⟩ := List.mem_map.mp hch
    rw [← hch]
    exact isUpperChar_of_mem_numAlpha _ (getD_mem_numAlpha (mapIdx_mod_lt hi))
  refine ⟨?_, by simp, ?_⟩
  · intro ch hch
    obtain ⟨i, hi, hch⟩ := List.mem_map.mp hch
    rw [← hch]
    have hm := getD_mem_numAlpha (mapIdx_mod_lt hi)
    exact ⟨hm, isUpperChar_of_mem_numAlpha _ hm⟩
  · exact ⟨_, decrypt_eq hsne hsall⟩

/-- Claim C9 witness: the cipher built from "АБ" encrypting "ПРИВЕТ" gives
"ПСИГЕУ", which decrypt accepts. -/
theorem modAlpha_encrypt_wellformed_witness :
    ∃ r, decrypt ⟨[0, 1]⟩ "ПСИГЕУ".toList = .ok r := by
  have h := modAlpha_encrypt_wellformed "АБ".toList ⟨[0, 1]⟩ "ПРИВЕТ".toList
    "ПСИГЕУ".toList (by decide) (by decide)
  exact h.2.2

/-- Claim C6: with a validly constructed key of indices `c.key`, encrypt maps
the filtered input's `i`-th letter of alphabet index `v` to the alphabet
letter at index `(v + key[i mod m]) mod 33`, and decrypt maps the `i`-th
ciphertext letter of index `v` to the letter at index
`(v + 33 - key[i mod m]) mod 33`, outputs concatenated in order (the index
sequences are expressed through the program's own string-to-indices
conversion `convertStr`). -/
theorem modAlpha_char_maps (skey : List Char) (c : Cipher)
    (hmk : mk skey = .ok c) :
    (∀ t s, encrypt c t = .ok s →
      s.length = (convertStr (normalize t)).length ∧
      ∀ i, i < s.length → s.getD i ' ' =
        numAlpha.getD (((convertStr (normalize t)).getD i 0 +
          c.key.getD (i % c.key.length) 0) % 33) ' ') ∧
    (∀ u r, decrypt c u = .ok r →
      r.length = (convertStr u).length ∧
      ∀ i, i < r.length → r.getD i ' ' =
        numAlpha.getD (((convertStr u).getD i 0 + 33 -
          c.key.getD (i % c.key.length) 0) % 33) ' ') := by
  constructor
  · intro t s henc
    have hne : normalize t ≠ [] := by
      cases hv : getValidOpenText t with
      | error e =>
        rw [encrypt, hv] at henc
        exact absurd henc (by simp)
      | ok valid => exact (getValidOpenText_ok_spec hv).2
    have hvmem : ∀ u ∈ normalize t, u ∈ numAlpha := fun u hu =>
      mem_numAlpha_of_mem_normalize hu
    have hcs : convertStr (normalize t) = (normalize t).map alphaIdxD :=
      convertStr_eq_map hvmem
    rw [encrypt_eq hne] at henc
    cases henc
    constructor
    · simp [hcs]
    · intro i hi
      simp only [List.length_map, List.length_mapIdx] at hi
      have hi1 : i < ((((normalize t).map alphaIdxD).mapIdx fun i w =>
          (w + c.key.getD (i % c.key.length) 0) % 33).map
          fun i => numAlpha.getD i ' ').length := by
        simp [hi]
      have hi2 : i < (((normalize t).map alphaIdxD).mapIdx fun i w =>
          (w + c.key.getD (i % c.key.length) 0) % 33).length := by
        simp [hi]
      have hi3 : i < ((normalize t).map alphaIdxD).length := by
        simp [hi]
      rw [List.getD_eq_getElem _ _ hi1, List.getElem_map, List.getElem_mapIdx,
        hcs, List.getD_eq_getElem _ _ hi3]
  · intro u r hdec
    cases hv : getValidCipherText u with
    | error e =>
      rw [decrypt, hv] at hdec
      exact absurd hdec (by simp)
    | ok valid =>
      obtain ⟨hvu, hune, hall⟩ := getValidCipherText_ok_spec hv
      have humem : ∀ ch ∈ u, ch ∈ numAlpha := fun ch hch =>
        mem_numAlpha_of_isUpperChar (hall ch hch)
      have hcs : convertStr u = u.map alphaIdxD := convertStr_eq_map humem
      rw [decrypt_eq hune hall] at hdec
      cases hdec
      constructor
      · simp [hcs]
      · intro i hi
        simp only [List.length_map, List.length_mapIdx] at hi
        have hi1 : i < (((u.map alphaIdxD).mapIdx fun i w =>
            (w + 33 - c.key.getD (i % c.key.length) 0) % 33).map
            fun i => numAlpha.getD i ' ').length := by
          simp [hi]
        have hi2 : i < ((u.map alphaIdxD).mapIdx fun i w =>
            (w + 33 - c.key.getD (i % c.key.length) 0) % 33).length := by
          simp [hi]
        have hi3 : i < (u.map alphaIdxD).length := by
          simp [hi]
        rw [List.getD_eq_getElem _ _ hi1, List.getElem_map, List.getElem_mapIdx,
          hcs, List.getD_eq_getElem _ _ hi3]

/-- Claim C6 witness: both character maps evaluated for the cipher built
from "АБ" on the open text "ПРИВЕТ" and its ciphertext "ПСИГЕУ". -/
theorem modAlpha_char_maps_witness :
    "ПСИГЕУ".toList.getD 1 ' ' =
      numAlpha.getD (((convertStr (normalize "ПРИВЕТ".toList)).getD 1 0 +
        (⟨[0, 1]⟩ : Cipher).key.getD (1 % 2) 0) % 33) ' ' ∧
    "ПРИВЕТ".toList.getD 1 ' ' =
      numAlpha.getD (((convertStr "ПСИГЕУ".toList).getD 1 0 + 33 -
        (⟨[0, 1]⟩ : Cipher).key.getD (1 % 2) 0) % 33) ' ' := by
  have h := modAlpha_char_maps "АБ".toList ⟨[0, 1]⟩ (by decide)
  have h1 := (h.1 "ПРИВЕТ".toList "ПСИГЕУ".toList (by decide)).2 1 (by decide)
  have h2 := (h.2 "ПСИГЕУ".toList "ПРИВЕТ".toList (by decide)).2 1 (by decide)
  exact ⟨h1, h2⟩

end TRL4.ModAlpha

/-! ## Route transposition cipher: theorems -/

namespace TRL4.TableRoute

/-- Claim C4: with 3 columns, encrypting "HELLO" writes the 5 letters
row-major into a 2 by 3 grid and reads the columns right to left, bottom to
top, skipping the blank cell, giving "LOELH"; decrypting "LOELH" with 3
columns returns "HELLO". -/
theorem route_concrete_example :
    encrypt 3 "HELLO".toList = .ok "LOELH".toList ∧
    decrypt 3 "LOELH".toList = .ok "HELLO".toList := by
  decide

theorem getValidText_eq {text : List Char} (h : normalize text ≠ []) :
    getValidText text = .ok (normalize text) := by
  have hne : text ≠ [] := by
    intro he
    rw [he] at h
    exact h rfl
  simp only [getValidText]
  rw [if_neg (by simpa using hne), if_neg (by simpa using h)]

theorem getValidText_ok_spec {text v : List Char}
    (h : getValidText text = .ok v) : v = normalize text ∧ normalize text ≠ [] := by
  simp only [getValidText] at h
  by_cases h1 : text.isEmpty
  · rw [if_pos h1] at h
    exact absurd h (by simp)
  · rw [if_neg h1] at h
    by_cases h2 : (normalize text).isEmpty
    · rw [if_pos h2] at h
      exact absurd h (by simp)
    · rw [if_neg h2] at h
      exact ⟨by simpa using h.symm, by simpa using h2⟩

/-- Claim C5: route encrypt and decrypt fail with TextTooShort exactly when
the normalized input length is at most the column count — a text normalizing
to exactly `columns` letters fails, while one normalizing to more letters
passes this check. -/
theorem route_text_too_short_strict (columns : Nat) (text : List Char)
    (h : normalize text ≠ []) :
    (encrypt columns text = .error .textTooShort ↔
      (normalize text).length ≤ columns) ∧
    (decrypt columns text = .error .textTooShort ↔
      (normalize text).length ≤ columns) := by
  constructor
  · simp only [encrypt, getValidText_eq h]
    by_cases hl : (normalize text).length ≤ columns
    · rw [if_pos hl]
      simp [hl]
    · rw [if_neg hl]
      simp [hl]
  · simp only [decrypt, getValidText_eq h]
    by_cases hl : (normalize text).length ≤ columns
    · rw [if_pos hl]
      simp [hl]
    · rw [if_neg hl]
      simp [hl]

/-- Claim C5 witness: with 5 columns, the spec's boundary pair — "WORLD"
(5 letters, fails) and "WORLDX" (6 letters, passes the length check). -/
theorem route_text_too_short_strict_witness :
    encrypt 5 "WORLD".toList = .error .textTooShort ∧
    ¬ encrypt 5 "WORLDX".toList = .error .textTooShort := by
  have h1 := (route_text_too_short_strict 5 "WORLD".toList (by decide)).1
  have h2 := (route_text_too_short_strict 5 "WORLDX".toList (by decide)).1
  constructor
  · exact h1.mpr (by decide)
  · intro he
    exact absurd (h2.mp he) (by decide)

theorem normalize_filter (text : List Char) :
    normalize (text.filter isalpha) = normalize text := by
  induction text with
  | nil => rfl
  | cons a t ih =>
    by_cases ha : isalpha a = true
    · rw [List.filter_cons_of_pos ha]
      simp only [normalize, List.filterMap_cons, if_pos ha]
      exact congrArg (toupper a :: ·) ih
    · rw [List.filter_cons_of_neg ha]
      simp only [normalize, List.filterMap_cons, if_neg ha]
      exact ih

/-- Claim C8: route decrypt applies the same normalization as encrypt — it
errors with EmptyText only on the empty input and with NoLetters only when
nothing survives the letter filter; otherwise non-letter characters such as
digits are silently dropped before decrypting, so decrypting an input equals
decrypting that input with its non-letters removed. -/
theorem route_decrypt_normalizes (columns : Nat) (text : List Char) :
    decrypt columns [] = .error .emptyText ∧
    (text ≠ [] → normalize text = [] → decrypt columns text = .error .noLetters) ∧
    (normalize text ≠ [] →
      decrypt columns text = decrypt columns (text.filter isalpha)) := by
  refine ⟨rfl, ?_, ?_⟩
  · intro hne hnil
    simp only [decrypt, getValidText]
    rw [if_neg (by simpa using hne), if_pos (by simpa using hnil)]
  · intro h
    have hfne : normalize (text.filter isalpha) ≠ [] := by
      rw [normalize_filter]
      exact h
    simp only [decrypt, getValidText_eq h, getValidText_eq hfne, normalize_filter]

/-- Claim C8 witness: the input "LO3EL?H" containing a digit and punctuation
decrypts exactly like its letters-only filtering, and the all-digit input
"123" fails with NoLetters. -/
theorem route_decrypt_normalizes_witness :
    decrypt 3 "LO3EL?H".toList = decrypt 3 ("LO3EL?H".toList.filter isalpha) ∧
    decrypt 3 "123".toList = .error .noLetters := by
  refine ⟨(route_decrypt_normalizes 3 "LO3EL?H".toList).2.2 (by decide),
    (route_decrypt_normalizes 3 "123".toList).2.1 (by decide) (by decide)⟩

theorem ceil_mul_ge (n : Nat) {k : Nat} (hk : 0 < k) :
    n ≤ ((n + k - 1) / k) * k := by
  have hd := Nat.div_add_mod (n + k - 1) k
  have hm : (n + k - 1) % k < k := Nat.mod_lt _ hk
  have e : ((n + k - 1) / k) * k = k * ((n + k - 1) / k) := Nat.mul_comm _ _
  omega

theorem mem_normalize_spec {text : List Char} {u : Char} (hu : u ∈ normalize text) :
    isalpha u = true ∧ toupper u = u ∧ u ≠ ' ' := by
  simp only [normalize, List.mem_filterMap, Option.ite_none_right_eq_some,
    Option.some.injEq] at hu
  obtain ⟨c, -, hc, hu⟩ := hu
  subst hu
  simp only [isalpha, Bool.or_eq_true, Bool.and_eq_true, decide_eq_true_eq] at hc
  rcases hc with ⟨h1, h2⟩ | ⟨h1, h2⟩
  · have hlo : (65 : Nat) ≤ c.toNat := char_le_iff_toNat.mp h1
    have hhi : c.toNat ≤ (90 : Nat) := char_le_iff_toNat.mp h2
    have hg : ¬ ('a' ≤ c ∧ c ≤ 'z') := by
      intro hcc
      have hx : (97 : Nat) ≤ c.toNat := char_le_iff_toNat.mp hcc.1
      omega
    rw [toupper, if_neg hg]
    refine ⟨?_, ?_, ?_⟩
    · simp only [isalpha, Bool.or_eq_true, Bool.and_eq_true, decide_eq_true_eq]
      exact Or.inl ⟨h1, h2⟩
    · rw [toupper, if_neg hg]
    · intro he
      have hx : c.toNat = (32 : Nat) := char_eq_iff_toNat.mp he
      omega
  · have hlo : (97 : Nat) ≤ c.toNat := char_le_iff_toNat.mp h1
    have hhi : c.toNat ≤ (122 : Nat) := char_le_iff_toNat.mp h2
    rw [toupper, if_pos ⟨h1, h2⟩]
    have ht : (Char.ofNat (c.toNat - 32)).toNat = c.toNat - 32 :=
      char_toNat_ofNat (by omega)
    have hA : (65 : Nat) ≤ (Char.ofNat (c.toNat - 32)).toNat := by
      rw [ht]
      omega
    have hZ : (Char.ofNat (c.toNat - 32)).toNat ≤ (90 : Nat) := by
      rw [ht]
      omega
    refine ⟨?_, ?_, ?_⟩
    · simp only [isalpha, Bool.or_eq_true, Bool.and_eq_true, decide_eq_true_eq]
      exact Or.inl ⟨char_le_iff_toNat.mpr hA, char_le_iff_toNat.mpr hZ⟩
    · rw [toupper, if_neg]
      intro hcc
      have hx : (97 : Nat) ≤ (Char.ofNat (c.toNat - 32)).toNat :=
        char_le_iff_toNat.mp hcc.1
      omega
    · intro he
      have hx : (Char.ofNat (c.toNat - 32)).toNat = (32 : Nat) :=
        char_eq_iff_toNat.mp he
      omega

theorem normalize_fixed {l : List Char}
    (h : ∀ c ∈ l, isalpha c = true ∧ toupper c = c) : normalize l = l := by
  induction l with
  | nil => rfl
  | cons a t ih =>
    obtain ⟨ha, hu⟩ := h a (List.mem_cons_self a t)
    simp only [normalize, List.filterMap_cons, if_pos ha, hu]
    exact congrArg (a :: ·) (ih fun c hc => h c (List.mem_cons_of_mem a hc))

theorem mem_writeOrder_iff {k rows n m : Nat} (hk : 0 < k) (hn : n ≤ rows * k) :
    m ∈ writeOrder k rows n ↔ m < n := by
  simp only [writeOrder, List.mem_flatMap, List.mem_reverse, List.mem_range,
    List.mem_filterMap, Option.ite_none_right_eq_some, Option.some.injEq,
    filledCell, decide_eq_true_eq]
  constructor
  · rintro ⟨j, hj, i, hi, hfill, rfl⟩
    exact hfill
  · intro hm
    refine ⟨m % k, Nat.mod_lt _ hk, m / k,
      (Nat.div_lt_iff_lt_mul hk).mpr (Nat.lt_of_lt_of_le hm hn), ?_, ?_⟩
    · have hd := Nat.div_add_mod m k
      have e : m / k * k = k * (m / k) := Nat.mul_comm _ _
      omega
    · have hd := Nat.div_add_mod m k
      have e : m / k * k = k * (m / k) := Nat.mul_comm _ _
      omega

theorem writeOrder_nodup {k rows n : Nat} (hk : 0 < k) :
    (writeOrder k rows n).Nodup := by
  rw [writeOrder, List.nodup_flatMap]
  constructor
  · intro j hj
    apply List.Nodup.filterMap
    · intro a b x hx1 hx2
      simp only [Option.mem_def, Option.ite_none_right_eq_some,
        Option.some.injEq] at hx1 hx2
      obtain ⟨-, h1⟩ := hx1
      obtain ⟨-, h2⟩ := hx2
      have he : a * k = b * k := by omega
      exact Nat.eq_of_mul_eq_mul_right hk he
    · exact List.nodup_reverse.mpr (List.nodup_range rows)
  · apply List.Nodup.pairwise_of_forall_ne (List.nodup_reverse.mpr (List.nodup_range k))
    intro a ha b hb hab
    rw [List.mem_reverse, List.mem_range] at ha hb
    show List.Disjoint _ _
    intro x hxa hxb
    simp only [List.mem_filterMap, List.mem_reverse, List.mem_range,
      Option.ite_none_right_eq_some, Option.some.injEq] at hxa hxb
    obtain ⟨i1, hi1, -, he1⟩ := hxa
    obtain ⟨i2, hi2, -, he2⟩ := hxb
    apply hab
    have hma : x % k = a := by
      rw [← he1, Nat.mul_comm i1 k, Nat.mul_add_mod]
      exact Nat.mod_eq_of_lt ha
    have hmb : x % k = b := by
      rw [← he2, Nat.mul_comm i2 k, Nat.mul_add_mod]
      exact Nat.mod_eq_of_lt hb
    rw [← hma, ← hmb]

theorem writeOrder_perm {k rows n : Nat} (hk : 0 < k) (hn : n ≤ rows * k) :
    (writeOrder k rows n).Perm (List.range n) := by
  apply List.Subperm.antisymm
  · exact (writeOrder_nodup hk).subperm fun x hx =>
      List.mem_range.mpr ((mem_writeOrder_iff hk hn).mp hx)
  · exact (List.nodup_range n).subperm fun x hx =>
      (mem_writeOrder_iff hk hn).mpr (List.mem_range.mp hx)

theorem filterMap_guard_map {α : Type} (g : Nat → α) (L : List Nat)
    (p : Nat → Bool) (idx : Nat → Nat) :
    (L.filterMap fun j => if p j then some (g (idx j)) else none)
      = (L.filterMap fun j => if p j then some (idx j) else none).map g := by
  rw [List.map_filterMap]
  apply List.filterMap_congr
  intro j hj
  by_cases h : p j
  · simp [h]
  · simp [h]

theorem flatMap_guard_map {α : Type} (g : Nat → α) (L1 L2 : List Nat)
    (p : Nat → Nat → Bool) (idx : Nat → Nat → Nat) :
    (L1.flatMap fun i => L2.filterMap fun j => if p i j then some (g (idx i j)) else none)
      = (L1.flatMap fun i =>
          L2.filterMap fun j => if p i j then some (idx i j) else none).map g := by
  induction L1 with
  | nil => rfl
  | cons a t ih =>
    rw [List.flatMap_cons, List.flatMap_cons, List.map_append, ih,
      filterMap_guard_map]

theorem encrypt_eq_writeOrder {k : Nat} {text : List Char}
    (h : normalize text ≠ []) (hlen : k < (normalize text).length) :
    encrypt k text = .ok ((writeOrder k (((normalize text).length + k - 1) / k)
      (normalize text).length).map fun m => (normalize text).getD m ' ') := by
  simp only [encrypt, getValidText_eq h]
  rw [if_neg (by omega)]
  congr 1
  rw [writeOrder, ← flatMap_guard_map]
  apply List.flatMap_congr
  intro j hj
  apply List.filterMap_congr
  intro i hi
  by_cases hfill : i * k + j < (normalize text).length
  · have hc : cellChar (normalize text) k i j = (normalize text).getD (i * k + j) ' ' := by
      rw [cellChar, if_pos hfill]
    have hmem : (normalize text).getD (i * k + j) ' ' ∈ normalize text := by
      rw [List.getD_eq_getElem _ _ hfill]
      exact List.getElem_mem _
    have hne2 : (normalize text).getD (i * k + j) ' ' ≠ ' ' :=
      (mem_normalize_spec hmem).2.2
    rw [hc, if_pos hne2, filledCell, if_pos (by simpa using hfill)]
  · have hc : cellChar (normalize text) k i j = ' ' := by
      rw [cellChar, if_neg hfill]
    rw [hc, if_neg (by simp), filledCell, if_neg (by simpa using hfill)]

theorem filterMap_window (a n : Nat) : ∀ k : Nat,
    ((List.range k).filterMap fun j => if a + j < n then some (a + j) else none)
      = (List.range (min (n - a) k)).map (a + ·) := by
  intro k
  induction k with
  | zero => simp
  | succ k ih =>
    rw [List.range_succ, List.filterMap_append, ih]
    by_cases h : a + k < n
    · have hmin1 : min (n - a) (k + 1) = min (n - a) k + 1 := by omega
      have hmin2 : min (n - a) k = k := by omega
      rw [hmin1, hmin2, List.range_succ, List.map_append]
      simp [h]
    · have hmin : min (n - a) (k + 1) = min (n - a) k := by omega
      rw [hmin]
      simp [h]

theorem rowMajor_eq_range {k n : Nat} : ∀ rows : Nat,
    ((List.range rows).flatMap fun i => (List.range k).filterMap fun j =>
      if filledCell k n i j then some (i * k + j) else none)
      = List.range (min n (rows * k)) := by
  intro rows
  induction rows with
  | zero => simp
  | succ r ih =>
    rw [List.range_succ, List.flatMap_append, ih]
    have hwin : (([r] : List Nat).flatMap fun i => (List.range k).filterMap fun j =>
        if filledCell k n i j then some (i * k + j) else none)
        = (List.range (min (n - r * k) k)).map (r * k + ·) := by
      simp only [List.flatMap_cons, List.flatMap_nil, List.append_nil]
      rw [← filterMap_window (r * k) n k]
      apply List.filterMap_congr
      intro j hj
      simp [filledCell]
    rw [hwin]
    have e : (r + 1) * k = r * k + k := Nat.succ_mul r k
    by_cases hc : n ≤ r * k
    · have h1 : min n (r * k) = n := by omega
      have h2 : min n ((r + 1) * k) = n := by omega
      have h3 : min (n - r * k) k = 0 := by omega
      rw [h1, h2, h3]
      simp
    · have h1 : min n (r * k) = r * k := by omega
      have h2 : min n ((r + 1) * k) = r * k + min (n - r * k) k := by omega
      rw [h1, h2, List.range_add]

theorem lookup_zip_map (f : Nat → Char) : ∀ (l : List Nat), l.Nodup → ∀ m ∈ l,
    ((l.zip (l.map f)).lookup m) = some (f m) := by
  intro l
  induction l with
  | nil =>
    intro _ m hm
    cases hm
  | cons a t ih =>
    intro hnd m hm
    rw [List.map_cons, List.zip_cons_cons, List.lookup_cons]
    rcases List.mem_cons.mp hm with rfl | hmt
    · simp
    · have hma : m ≠ a := by
        intro he
        rw [he] at hmt
        exact (List.nodup_cons.mp hnd).1 hmt
      have hbeq : (m == a) = false := beq_eq_false_iff_ne.mpr hma
      rw [hbeq]
      exact ih (List.nodup_cons.mp hnd).2 m hmt

theorem map_getD_range (v : List Char) :
    (List.range v.length).map (fun m => v.getD m ' ') = v := by
  apply List.ext_getElem
  · simp
  · intro i h1 h2
    simp only [List.getElem_map, List.getElem_range]
    exact List.getD_eq_getElem _ _ h2

/-- Claim C2: for every positive column count and every text whose
normalization is strictly longer than the column count, route decrypt of
route encrypt returns the normalized text. -/
theorem route_round_trip (columns : Nat) (text : List Char) (hk : 0 < columns)
    (hlen : columns < (normalize text).length) :
    (encrypt columns text).bind (decrypt columns) = .ok (normalize text) := by
  have hne : normalize text ≠ [] := by
    intro he
    rw [he] at hlen
    simp at hlen
  rw [encrypt_eq_writeOrder hne hlen]
  show decrypt columns _ = _
  set v := normalize text with hv
  set n := v.length with hn
  set rows := (n + columns - 1) / columns with hrows
  set wo := writeOrder columns rows n with hwo
  set s := wo.map (fun m => v.getD m ' ') with hs
  have hnk : n ≤ rows * columns := ceil_mul_ge n hk
  have hperm : wo.Perm (List.range n) := writeOrder_perm hk hnk
  have hslen : s.length = n := by
    rw [hs, List.length_map, hperm.length_eq, List.length_range]
  have hsspec : ∀ c ∈ s, isalpha c = true ∧ toupper c = c := by
    intro c hc
    obtain ⟨m, hm, rfl⟩ := List.mem_map.mp hc
    have hmn : m < n := (mem_writeOrder_iff hk hnk).mp hm
    have hmv : m < v.length := by
      rw [← hn]
      exact hmn
    have hmem : v.getD m ' ' ∈ v := by
      rw [List.getD_eq_getElem _ _ hmv]
      exact List.getElem_mem _
    have hspec := mem_normalize_spec (hv ▸ hmem)
    exact ⟨hspec.1, hspec.2.1⟩
  have hnorm : normalize s = s := normalize_fixed hsspec
  have hsne : s ≠ [] := by
    intro he
    rw [he] at hslen
    simp only [List.length_nil] at hslen
    omega
  have hgvt : getValidText s = .ok s := by
    rw [getValidText_eq (by rw [hnorm]; exact hsne), hnorm]
  simp only [decrypt, hgvt]
  rw [if_neg (by rw [hslen]; omega)]
  congr 1
  simp only [hslen]
  rw [← hrows, ← hwo]
  rw [flatMap_guard_map (fun m => ((wo.zip s).lookup m).getD ' ')
    (List.range rows) (List.range columns) (fun i j => filledCell columns n i j)
    (fun i j => i * columns + j)]
  rw [rowMajor_eq_range rows]
  have hminn : min n (rows * columns) = n := by omega
  rw [hminn]
  have hpt : ∀ m ∈ List.range n, ((wo.zip s).lookup m).getD ' ' = v.getD m ' ' := by
    intro m hm
    have hmwo : m ∈ wo := (mem_writeOrder_iff hk hnk).mpr (List.mem_range.mp hm)
    rw [hs, lookup_zip_map _ wo (writeOrder_nodup hk) m hmwo]
    rfl
  rw [List.map_congr_left hpt, hn, map_getD_range]

/-- Claim C2 witness: the round trip evaluated at 3 columns on "HELLO". -/
theorem route_round_trip_witness :
    (encrypt 3 "HELLO".toList).bind (decrypt 3) = .ok "HELLO".toList := by
  have h := route_round_trip 3 "HELLO".toList (by decide) (by decide)
  have he : normalize "HELLO".toList = "HELLO".toList := by decide
  rwa [he] at h

/-- Claim C10: for every positive column count, a successful route encryption
returns a permutation of the normalized input — same length, same multiset of
characters, no letter added, dropped or substituted. -/
theorem route_encrypt_perm (columns : Nat) (text s : List Char)
    (hk : 0 < columns) (henc : encrypt columns text = .ok s) :
    s.Perm (normalize text) := by
  have hex : normalize text ≠ [] ∧ columns < (normalize text).length := by
    cases hv : getValidText text with
    | error e =>
      rw [encrypt, hv] at henc
      exact absurd henc (by simp)
    | ok valid =>
      obtain ⟨hveq, hvne⟩ := getValidText_ok_spec hv
      subst hveq
      refine ⟨hvne, ?_⟩
      simp only [encrypt, hv] at henc
      by_cases hl : (normalize text).length ≤ columns
      · rw [if_pos hl] at henc
        exact absurd henc (by simp)
      · omega
  obtain ⟨hne, hlen⟩ := hex
  rw [encrypt_eq_writeOrder hne hlen] at henc
  cases henc
  have hnk := ceil_mul_ge (normalize text).length hk
  have hperm := writeOrder_perm hk hnk
  have hmap := hperm.map fun m => (normalize text).getD m ' '
  rwa [map_getD_range] at hmap

/-- Claim C10 witness: the 3-column encryption of "HELLO" is a permutation of
it. -/
theorem route_encrypt_perm_witness :
    "LOELH".toList.Perm (normalize "HELLO".toList) :=
  route_encrypt_perm 3 "HELLO".toList "LOELH".toList (by decide) (by decide)

end TRL4.TableRoute
